import Mathlib

/-!
Verification of the commission-reconciliation web application (`src/app.py`)
against its natural-language specification.

The pure logic of `app.py` is shallowly embedded below:
* uploaded files are represented by their filenames (`String`); the code only
  ever inspects `f.filename`;
* pandas DataFrames are represented as ordered association lists of columns,
  a column being either a numeric column (`List ℚ`, exact rationals standing
  for the exact decimal arithmetic the spec mandates) or a text column;
* floats are `Option ℚ` where `none` plays the role of NaN (pandas uses NaN
  for missing values / empty-mean; signed zero and infinities do not occur in
  the fragments modelled here);
* the commission engine `calcular_comissoes` lives in `comissoes_backend`,
  which is not part of this repository snapshot; it is modelled from the
  spec (§4.3 Joiner, §4.4 Aggregator) and marked as such;
* Python's `re.match` digit class `\d` is modelled as the ASCII digits, the
  only digits the spec's `YYYYMMDD_HHMMSS` format produces.
-/

namespace Comissoes

/-! ## Basic string machinery -/

/-- Lowercasing as Python's `str.lower` acts on the alphabets appearing in
this application: ASCII `A`–`Z` and the Latin-1 accented capitals
(`À`–`Þ` except `×`) map 32 code points up; everything else is fixed. -/
def lowerChar (c : Char) : Char :=
  if ('A' ≤ c ∧ c ≤ 'Z') ∨ (0xC0 ≤ c.toNat ∧ c.toNat ≤ 0xDE ∧ c.toNat ≠ 0xD7) then
    Char.ofNat (c.toNat + 32)
  else c

/-- `s.lower()` on a whole string. -/
def lowerStr (s : String) : String := String.mk (s.toList.map lowerChar)

/-- Does the first list occur at the head of the second one. -/
def startsWithL : List Char → List Char → Bool
  | [], _ => true
  | _ :: _, [] => false
  | a :: as, b :: bs => a == b && startsWithL as bs

/-- Does the first list occur contiguously anywhere inside the second one. -/
def containsL (p : List Char) : List Char → Bool
  | [] => startsWithL p []
  | b :: bs => startsWithL p (b :: bs) || containsL p bs

/-- Python's `sub in s` substring test. -/
def isSubstr (sub s : String) : Bool := containsL sub.toList s.toList

/-- Python's `", ".join(parts)`. -/
def joinCommaSpace : List String → String
  | [] => ""
  | [x] => x
  | x :: y :: rest => x ++ ", " ++ joinCommaSpace (y :: rest)

/-! ## File classification (`classificar_arquivos`, app.py lines 87–135) -/

/-- The ten source slots, in the declaration order of the `slots` dict. -/
inductive SlotKey
  | pj1 | seg | cam | co_ter | co_xpvp | cre | xpcs | lan_man | tim_rep | lan_pro
deriving DecidableEq, Repr

/-- The slot dict: which file (by name) currently occupies each slot. -/
structure Slots where
  pj1     : Option String
  seg     : Option String
  cam     : Option String
  co_ter  : Option String
  co_xpvp : Option String
  cre     : Option String
  xpcs    : Option String
  lan_man : Option String
  tim_rep : Option String
  lan_pro : Option String
deriving DecidableEq, Repr

def Slots.empty : Slots := ⟨none, none, none, none, none, none, none, none, none, none⟩

def Slots.get (s : Slots) : SlotKey → Option String
  | .pj1 => s.pj1
  | .seg => s.seg
  | .cam => s.cam
  | .co_ter => s.co_ter
  | .co_xpvp => s.co_xpvp
  | .cre => s.cre
  | .xpcs => s.xpcs
  | .lan_man => s.lan_man
  | .tim_rep => s.tim_rep
  | .lan_pro => s.lan_pro

def Slots.set (s : Slots) : SlotKey → Option String → Slots
  | .pj1, v => { s with pj1 := v }
  | .seg, v => { s with seg := v }
  | .cam, v => { s with cam := v }
  | .co_ter, v => { s with co_ter := v }
  | .co_xpvp, v => { s with co_xpvp := v }
  | .cre, v => { s with cre := v }
  | .xpcs, v => { s with xpcs := v }
  | .lan_man, v => { s with lan_man := v }
  | .tim_rep, v => { s with tim_rep := v }
  | .lan_pro, v => { s with lan_pro := v }

/-- The `if`/`elif` keyword chain of `classificar_arquivos` applied to an
already-lowercased name: which slot would this file be marked into. -/
def classifyKeyword (nome : String) : Option SlotKey :=
  if isSubstr "seguro" nome then some .seg
  else if isSubstr "câmbio" nome || isSubstr "cambio" nome then some .cam
  else if isSubstr "terceiras" nome then some .co_ter
  else if isSubstr "xpvp" nome then some .co_xpvp
  else if isSubstr "crédito" nome || isSubstr "credito" nome then some .cre
  else if isSubstr "xpcs" nome then some .xpcs
  else if isSubstr "lançamentos manuais" nome || isSubstr "lancamentos manuais" nome then
    some .lan_man
  else if isSubstr "times e repasses" nome then some .tim_rep
  else if isSubstr "lançamento de produtos" nome || isSubstr "lancamento de produtos" nome then
    some .lan_pro
  else none

/-- `marca(chave)`: fill the slot with the file and record the lowered name as
used, but only when the slot is still empty. -/
def marca (st : Slots × List String) (chave : SlotKey) (f : String) (nome : String) :
    Slots × List String :=
  if st.1.get chave = none then (st.1.set chave (some f), nome :: st.2)
  else st

/-- One iteration of the `for f in uploaded_files` loop (with
`nome = lowerStr f`). -/
def classStep (st : Slots × List String) (f : String) : Slots × List String :=
  match classifyKeyword (lowerStr f) with
  | some chave => marca st chave f (lowerStr f)
  | none => st

/-- The keyword pass of `classificar_arquivos`: slots and the `usados` set. -/
def classPass (files : List String) : Slots × List String :=
  files.foldl classStep (Slots.empty, [])

/-- `nao_usados`: files whose lowered name was never recorded as used. -/
def naoUsados (files : List String) : List String :=
  files.filter (fun f => !(classPass files).2.contains (lowerStr f))

/-- `classificar_arquivos` (app.py lines 87–135): keyword pass, then the
first unmatched file falls back to the `pj1` slot when that is still empty,
and finally the list of unfilled slots in dict order. -/
def classificar_arquivos (files : List String) : Slots × List String :=
  let slots := (classPass files).1
  let slots :=
    match naoUsados files with
    | [] => slots
    | f :: _ => if slots.pj1 = none then { slots with pj1 := some f } else slots
  let keys : List (SlotKey × String) :=
    [(.pj1, "pj1"), (.seg, "seg"), (.cam, "cam"), (.co_ter, "co_ter"),
     (.co_xpvp, "co_xpvp"), (.cre, "cre"), (.xpcs, "xpcs"), (.lan_man, "lan_man"),
     (.tim_rep, "tim_rep"), (.lan_pro, "lan_pro")]
  (slots, (keys.filter (fun kv => slots.get kv.1 = none)).map Prod.snd)

/-! ## Numbers and currency formatting (`brl`, app.py lines 138–141)

Monetary values are modelled as exact rationals; the float value NaN is
modelled as `none : Option ℚ`.  Rounding of `Series.round(2)` /
`f"{v:.2f}"` is round-half-to-even, numpy's and Python's rounding mode
(ties on the underlying binary doubles are not re-modelled). -/

/-- Round a rational to the nearest integer, ties to even. -/
def roundHalfEven (q : ℚ) : ℤ :=
  if q - ⌊q⌋ < 1/2 then ⌊q⌋
  else if 1/2 < q - ⌊q⌋ then ⌊q⌋ + 1
  else if Even ⌊q⌋ then ⌊q⌋ else ⌊q⌋ + 1

/-- `round(x, 2)` / `Series.round(2)`: round to 2 decimal places. -/
def round2 (q : ℚ) : ℚ := (roundHalfEven (q * 100) : ℚ) / 100

/-- The character of a decimal digit. -/
def digitChar (d : Nat) : Char := Char.ofNat (48 + d)

/-- Decimal digits of a natural number, most significant first. -/
def natDigits (n : Nat) : List Char :=
  if _h : n < 10 then [digitChar n]
  else natDigits (n / 10) ++ [digitChar (n % 10)]
decreasing_by exact Nat.div_lt_self (by omega) (by omega)

/-- Insert a separator after every third character of a reversed digit
list (so, grouping from the right of the original number). -/
def group3Rev (sep : Char) (ds : List Char) : List Char :=
  if ds.length ≤ 3 then ds
  else ds.take 3 ++ sep :: group3Rev sep (ds.drop 3)
termination_by ds.length
decreasing_by simp only [List.length_drop]; omega

/-- Thousands grouping of a digit list, as Python's `,` format spec. -/
def group3 (sep : Char) (ds : List Char) : List Char := (group3Rev sep ds.reverse).reverse

/-- Exactly two decimal digits (for the cents part, `n < 100`). -/
def twoDigits (n : Nat) : List Char := [digitChar (n / 10), digitChar (n % 10)]

/-- Python's `f"{q:,.2f}"`, generalised over the thousands separator and
the decimal separator: sign, grouped integer digits, separator, two cent
digits. -/
def formatFixed2 (thou dec : Char) (q : ℚ) : List Char :=
  let cents := roundHalfEven (q * 100)
  (if cents < 0 then ['-'] else [])
    ++ group3 thou (natDigits (cents.natAbs / 100)) ++ dec :: twoDigits (cents.natAbs % 100)

/-- Python's `s.replace(a, b)` for single-character arguments. -/
def replaceChar (a b : Char) (s : List Char) : List Char :=
  s.map (fun c => if c == a then b else c)

/-- `brl` (app.py lines 138–141): NaN becomes `0.0`, then the value is
formatted with `,` thousands / `.` decimal and the separators are swapped
through the placeholder `v`. -/
def brl (valor : Option ℚ) : String :=
  let v : ℚ := match valor with | none => 0 | some q => q
  let base := "R$ ".toList ++ formatFixed2 ',' '.' v
  String.mk (replaceChar 'v' '.' (replaceChar '.' ',' (replaceChar ',' 'v' base)))

/-- The spec's description of the currency formatter: `"R$ "` followed by
the value with 2 decimal places, `.` as thousands separator and `,` as
decimal separator; `"R$ 0,00"` on NaN. -/
def brlSpec (valor : Option ℚ) : String :=
  match valor with
  | none => "R$ 0,00"
  | some q => String.mk ("R$ ".toList ++ formatFixed2 '.' ',' q)

/-! ## DataFrames and the dashboard context
(`montar_contexto_dashboard`, app.py lines 216–302)

A DataFrame is an ordered association list of named columns; a column is
either numeric (exact rationals) or textual.  Only the parts of the
context that the claims talk about (the metrics) are modelled; the HTML
rendering, the source-table links and the competence selector are plain
presentation plumbing with no logic. -/

inductive ColData
  | num (vals : List ℚ)
  | str (vals : List String)
deriving DecidableEq, Repr

abbrev DataFrame := List (String × ColData)

def colLen : ColData → Nat
  | .num vs => vs.length
  | .str vs => vs.length

/-- `len(df)`: the number of rows. -/
def nRows (df : DataFrame) : Nat :=
  match df with
  | [] => 0
  | c :: _ => colLen c.2

/-- Column access / membership test (`name in df.columns`, `df[name]`). -/
def getCol (df : DataFrame) (name : String) : Option ColData :=
  match df.find? (fun c => c.1 == name) with
  | some c => some c.2
  | none => none

/-- `Series.round(2)` on one column; text columns are not numeric dtypes
and are untouched by `select_dtypes(include=["number"])`. -/
def roundCol : ColData → ColData
  | .num vs => .num (vs.map round2)
  | .str vs => .str vs

/-- `df[colunas_numericas] = df[colunas_numericas].round(2)`: every
numeric column rounded to 2 decimals, in place. -/
def roundNumericCols (df : DataFrame) : DataFrame :=
  df.map (fun c => (c.1, roundCol c.2))

/-- `Series.sum` (empty sum is 0). -/
def sumQ (vs : List ℚ) : ℚ := vs.sum

/-- `Series.mean` (NaN on an empty column). -/
def meanQ (vs : List ℚ) : Option ℚ :=
  match vs with
  | [] => none
  | _ => some (vs.sum / vs.length)

/-- `Series.max` (NaN on an empty column). -/
def maxQ (vs : List ℚ) : Option ℚ :=
  match vs with
  | [] => none
  | v :: rest => some (rest.foldl max v)

/-- The metric fields of the template context built by
`montar_contexto_dashboard`.  `max_total_val` is the extra key popped by
the callers; `none` models an absent key. -/
structure DashCtx where
  total_assessores : Nat
  soma_total : String
  media_total : String
  max_total : String
  max_total_val : Option String
deriving DecidableEq, Repr

/-- `montar_contexto_dashboard` (app.py lines 216–302): rounds the numeric
columns of its argument in place (the returned `DataFrame` is the caller's
df after the call), then computes the metrics of the column
`"Valor Total Assessor"` — note `max_total` is built from the *mean* and
the true maximum is parked in `max_total_val`.  (A text column of that
name never occurs and is not modelled.) -/
def montar_contexto_dashboard (df : DataFrame) : DashCtx × DataFrame :=
  let df2 := roundNumericCols df
  match getCol df2 "Valor Total Assessor" with
  | some (.num vs) =>
    ({ total_assessores := nRows df2
       soma_total := brl (some (sumQ vs))
       media_total := brl (meanQ vs)
       max_total := brl (meanQ vs)
       max_total_val := some (brl (maxQ vs)) }, df2)
  | _ =>
    ({ total_assessores := nRows df2
       soma_total := brl (some 0)
       media_total := brl (some 0)
       max_total := brl (some 0)
       max_total_val := some (brl (some 0)) }, df2)

/-- `contexto["max_total"] = contexto.pop("max_total_val")` (app.py
lines 421 and 557). -/
def fixMaxTotal (c : DashCtx) : DashCtx :=
  { c with max_total := c.max_total_val.getD c.max_total, max_total_val := none }

/-- The context actually rendered by `visualizar_antigo` (app.py
lines 412–423) for a `df_final` loaded from storage. -/
def visualizar_ctx (df_final : DataFrame) : DashCtx :=
  fixMaxTotal (montar_contexto_dashboard df_final).1

/-- The context actually rendered by `processar` (app.py lines 467–559):
the engine's `df_final` is first rounded at emission (lines 468–469), then
handed to `montar_contexto_dashboard`, then the `max_total` key is fixed. -/
def processar_ctx (df_final : DataFrame) : DashCtx :=
  fixMaxTotal (montar_contexto_dashboard (roundNumericCols df_final)).1

/-! ## The reconciliation engine

`calcular_comissoes` is imported from `comissoes_backend`, which is not
part of this repository snapshot; it is modelled from the spec. -/

/-- A canonical line item (spec §3): advisor key, discriminant source
kind, exact amount. -/
structure LineItem where
  advisor_key : String
  source_kind : SlotKey
  amount : ℚ
deriving DecidableEq, Repr

abbrev UnifiedLedger := List LineItem

/-- Modelled from the spec: the Joiner/Unifier (§4.3) of the missing
`comissoes_backend.calcular_comissoes` — the ten normalized tables are
concatenated in source-kind declaration order into the `UnifiedLedger`. -/
def df_juntar_of (pj1 seg cam co_ter co_xpvp cre xpcs lan_man tim_rep lan_pro :
    List LineItem) : UnifiedLedger :=
  pj1 ++ seg ++ cam ++ co_ter ++ co_xpvp ++ cre ++ xpcs ++ lan_man ++ tim_rep ++ lan_pro

/-- Exact sum of the amounts of one advisor's ledger rows. -/
def totalFor (ledger : UnifiedLedger) (k : String) : ℚ :=
  ((ledger.filter (fun i => i.advisor_key == k)).map LineItem.amount).sum

/-- The distinct advisor keys of the ledger. -/
def advisorKeys (ledger : UnifiedLedger) : List String :=
  (ledger.map LineItem.advisor_key).dedup

/-- Modelled from the spec: the Aggregator (§4.4) of the missing
`comissoes_backend.calcular_comissoes` — one row per distinct advisor key,
with the exact sum of that advisor's amounts. -/
def df_final_of (ledger : UnifiedLedger) : List (String × ℚ) :=
  (advisorKeys ledger).map (fun k => (k, totalFor ledger k))

/-- Modelled from the spec: `calcular_comissoes` (the engine of
`comissoes_backend`, absent from src/) returns the per-advisor aggregate
and the unified ledger built from the ten normalized source tables. -/
def calcular_comissoes (pj1 seg cam co_ter co_xpvp cre xpcs lan_man tim_rep lan_pro :
    List LineItem) : List (String × ℚ) × UnifiedLedger :=
  let ledger := df_juntar_of pj1 seg cam co_ter co_xpvp cre xpcs lan_man tim_rep lan_pro
  (df_final_of ledger, ledger)

/-- The `df_final` DataFrame written/rendered by `processar`: an advisor
column and the total column. -/
def dfFinalFrame (pairs : List (String × ℚ)) : DataFrame :=
  [("Assessor", ColData.str (pairs.map Prod.fst)),
   ("Valor Total Assessor", ColData.num (pairs.map Prod.snd))]

/-! ## The `/processar` route (app.py lines 426–559) -/

/-- `re.match(r"^\d{4}-\d{2}$", s)` (with `\d` as the ASCII digits the
`YYYY-MM` format produces). -/
def matchCompetencia (s : String) : Bool :=
  let l := s.toList
  l.length == 7 && (l.take 4).all Char.isDigit && l.drop 4 == '-' :: l.drop 5
    && (l.drop 5).all Char.isDigit

/-- The first flash message of the missing-source abort (app.py line 445):
one message naming every missing slot at once. -/
def missingMsg (faltando : List String) : String :=
  "Não consegui identificar estes tipos de arquivo: " ++ joinCommaSpace faltando

/-- The second flash message of the missing-source abort (app.py
lines 446–449). -/
def hintMsg : String :=
  "Confira se os nomes contêm: Seguro, Câmbio, Terceiras, XPVP, Crédito, XPCS, " ++
  "Lançamentos Manuais, Times e Repasses, Lançamento de Produtos."

/-- Outcome of the `/processar` route: either flash messages plus a
redirect to the index (no output tables), or the rendered result with the
two output tables. -/
inductive ProcResult
  | abort (messages : List String)
  | render (df_final : List (String × ℚ)) (df_juntar : UnifiedLedger) (ctx : DashCtx)
deriving DecidableEq

/-- `processar` (app.py lines 426–559).  `load k nome` stands for
`pd.read_excel` plus the engine-side normalization of the file in slot
`k`; persistence (local files, Supabase upload) carries no logic and is
not modelled. -/
def processar (competencia : String) (files : List String)
    (load : SlotKey → String → List LineItem) : ProcResult :=
  if !matchCompetencia competencia then
    .abort ["Selecione a competência (mês/ano) antes de processar."]
  else if files.headD "" == "" then
    .abort ["Nenhum arquivo foi enviado. Selecione a pasta ou os arquivos de comissão."]
  else
    let cls := classificar_arquivos files
    if cls.2 ≠ [] then .abort [missingMsg cls.2, hintMsg]
    else
      let tbl := fun k => load k ((cls.1.get k).getD "")
      let res := calcular_comissoes (tbl .pj1) (tbl .seg) (tbl .cam) (tbl .co_ter)
        (tbl .co_xpvp) (tbl .cre) (tbl .xpcs) (tbl .lan_man) (tbl .tim_rep) (tbl .lan_pro)
      .render res.1 res.2 (processar_ctx (dfFinalFrame res.1))

/-! ## Local downloads (`OUTPUT_FILES` and `download_excel`,
app.py lines 67–80 and 575–581) -/

/-- The twelve fixed output paths, keyed by their short names.
`outputDir` stands for the environment-dependent `OUTPUT_DIR`. -/
def OUTPUT_FILES (outputDir : String) : List (String × String) :=
  [("df_final", outputDir ++ "/df_final.xlsx"),
   ("df_juntar", outputDir ++ "/df_juntar.xlsx"),
   ("pj1", outputDir ++ "/pj1.xlsx"),
   ("seg", outputDir ++ "/seguro_pj.xlsx"),
   ("cam", outputDir ++ "/cambio.xlsx"),
   ("co_ter", outputDir ++ "/co_corretagem_terceiras.xlsx"),
   ("co_xpvp", outputDir ++ "/co_corretagem_xpvp.xlsx"),
   ("cre", outputDir ++ "/credito.xlsx"),
   ("xpcs", outputDir ++ "/xpcs.xlsx"),
   ("lan_man", outputDir ++ "/lancamentos_manuais.xlsx"),
   ("tim_rep", outputDir ++ "/times_repasses.xlsx"),
   ("lan_pro", outputDir ++ "/lancamento_produtos.xlsx")]

inductive DownloadResult
  | sendFile (path : String)
  | redirectIndex
deriving DecidableEq, Repr

/-- `download_excel` (app.py lines 575–581): look the short name up in the
fixed dict; serve the file only when the key exists and the file exists,
otherwise flash and redirect to the index.  `fsExists` stands for
`os.path.exists`. -/
def download_excel (outputDir : String) (fsExists : String → Bool) (nome : String) :
    DownloadResult :=
  match (OUTPUT_FILES outputDir).lookup nome with
  | none => .redirectIndex
  | some path => if fsExists path then .sendFile path else .redirectIndex

/-! ## Stored-result listing (`listar_df_final_por_competencia` and
`escolher_mais_recente_df_final`, app.py lines 172–190)

The object store is abstracted as a function from a path to the names
listed under it (`_supabase_list` with the `"name"` fields extracted).
Python's `sorted(arquivos, reverse=True)` on strings is descending
lexicographic order on code points; it is modelled by Mathlib's insertion
sort under the decidable total order `strGe`. -/

/-- Strict lexicographic order on code-point lists — Python's `<` on
strings. -/
def lexLt : List Char → List Char → Bool
  | [], [] => false
  | [], _ :: _ => true
  | _ :: _, [] => false
  | a :: as, b :: bs => a < b || (a == b && lexLt as bs)

/-- `a ≥ b` in Python string order. -/
def strGe (a b : String) : Prop := lexLt a.toList b.toList = false

instance : DecidableRel strGe := fun a b => instDecidableEqBool (lexLt a.toList b.toList) false

/-- `sorted(·, reverse=True)` on strings. -/
def sortDesc (l : List String) : List String := List.insertionSort strGe l

/-- Does a name match `^df_final_\d{8}_\d{6}\.xlsx$` (app.py line 181,
with `\d` as ASCII digits)? -/
def isDfFinalName (s : String) : Bool :=
  let l := s.toList
  l.length == 29 && l.take 9 == "df_final_".toList
    && ((l.drop 9).take 8).all Char.isDigit
    && (l.drop 17).take 1 == ['_']
    && ((l.drop 18).take 6).all Char.isDigit
    && l.drop 24 == ".xlsx".toList

/-- `listar_df_final_por_competencia` (app.py lines 172–185): the stored
names under the competence folder that match the `df_final` pattern, each
prefixed with the competence, in descending string order. -/
def listar_df_final_por_competencia (store : String → List String)
    (competencia : String) : List String :=
  sortDesc (((store competencia).filter isDfFinalName).map
    (fun nome => competencia ++ "/" ++ nome))

/-- `escolher_mais_recente_df_final` (app.py lines 188–190):
`arquivos[0] if arquivos else None`. -/
def escolher_mais_recente_df_final (store : String → List String)
    (competencia : String) : Option String :=
  match listar_df_final_por_competencia store competencia with
  | [] => none
  | a :: _ => some a

/-- The numeric value of a digit list, most significant digit first. -/
def digitsToNat (ds : List Char) : Nat := ds.foldl (fun n c => 10 * n + (c.toNat - 48)) 0

/-- The timestamp embedded in a matching `df_final` name, as the 14-digit
number `YYYYMMDDHHMMSS`. -/
def tsOf (s : String) : Nat :=
  digitsToNat ((s.toList.drop 9).take 8 ++ (s.toList.drop 18).take 6)

/-- The timestamp embedded in a stored path `competencia/df_final_…`. -/
def tsOfPath (competencia : String) (p : String) : Nat :=
  tsOf (String.mk (p.toList.drop (competencia.toList.length + 1)))

/-! ## Spec-side restatements used for refinement claims -/

/-- The spec's keyword precedence list (§6, claim C4): slots with their
keyword substrings, in the fixed testing order of the classifier. -/
def keywordOrder : List (SlotKey × List String) :=
  [(.seg, ["seguro"]),
   (.cam, ["câmbio", "cambio"]),
   (.co_ter, ["terceiras"]),
   (.co_xpvp, ["xpvp"]),
   (.cre, ["crédito", "credito"]),
   (.xpcs, ["xpcs"]),
   (.lan_man, ["lançamentos manuais", "lancamentos manuais"]),
   (.tim_rep, ["times e repasses"]),
   (.lan_pro, ["lançamento de produtos", "lancamento de produtos"])]

/-- The spec's description of the classifier: scan the keyword list in
order and take the slot of the first keyword occurring in the name. -/
def firstMatchSpec (nome : String) : Option SlotKey :=
  keywordOrder.findSome? (fun kw =>
    if kw.2.any (fun s => isSubstr s nome) then some kw.1 else none)

/-- Exchanging the two separator characters `,` and `.`, the net effect
the spec ascribes to `brl`'s three `replace` calls. -/
def swapSep (c : Char) : Char :=
  if c == ',' then '.' else if c == '.' then ',' else c

/-- A batch of nine files covering all nine keyword slots and leaving the
tenth (`pj1`) unfilled. -/
def filesNine : List String :=
  ["seguro.xlsx", "cambio.xlsx", "terceiras.xlsx", "xpvp.xlsx", "credito.xlsx",
   "xpcs.xlsx", "lancamentos manuais.xlsx", "times e repasses.xlsx",
   "lancamento de produtos.xlsx"]

/-- A small aggregate table used to instantiate the dashboard claims. -/
def dfSample : DataFrame :=
  [("Assessor", ColData.str ["A1", "A2", "A3"]),
   ("Valor Total Assessor", ColData.num [1, 2, 6])]

/-- All ten slot keys, in dict order. -/
def allSlotKeys : List SlotKey :=
  [.pj1, .seg, .cam, .co_ter, .co_xpvp, .cre, .xpcs, .lan_man, .tim_rep, .lan_pro]

/-! # Theorems -/

/-! ## Association-list lookups -/

theorem lookup_mem_keys {l : List (String × String)} {k v : String}
    (h : l.lookup k = some v) : k ∈ l.map Prod.fst := by
  induction l with
  | nil => simp [List.lookup_nil] at h
  | cons a t ih =>
    obtain ⟨a1, a2⟩ := a
    rw [List.lookup_cons] at h
    cases hb : k == a1 with
    | true =>
      have hk : k = a1 := by simpa using hb
      simp [hk]
    | false =>
      rw [hb] at h
      simp only [List.map_cons, List.mem_cons]
      exact Or.inr (ih h)

theorem lookup_mem_values {l : List (String × String)} {k v : String}
    (h : l.lookup k = some v) : v ∈ l.map Prod.snd := by
  induction l with
  | nil => simp [List.lookup_nil] at h
  | cons a t ih =>
    obtain ⟨a1, a2⟩ := a
    rw [List.lookup_cons] at h
    cases hb : k == a1 with
    | true =>
      rw [hb] at h
      have hv : a2 = v := by simpa using h
      simp [hv]
    | false =>
      rw [hb] at h
      simp only [List.map_cons, List.mem_cons]
      exact Or.inr (ih h)

/-- C10: the local download route serves only the twelve fixed paths: a
request name outside `OUTPUT_FILES` is redirected without serving
anything, and any file it ever serves is one of the twelve fixed values. -/
theorem download_excel_restricted (outputDir : String) (fsExists : String → Bool)
    (nome : String) :
    (nome ∉ (OUTPUT_FILES outputDir).map Prod.fst →
      download_excel outputDir fsExists nome = .redirectIndex)
    ∧ ∀ path, download_excel outputDir fsExists nome = .sendFile path →
        path ∈ (OUTPUT_FILES outputDir).map Prod.snd := by
  constructor
  · intro hnm
    unfold download_excel
    cases hl : (OUTPUT_FILES outputDir).lookup nome with
    | none => rfl
    | some path => exact absurd (lookup_mem_keys hl) hnm
  · intro path hp
    unfold download_excel at hp
    cases hl : (OUTPUT_FILES outputDir).lookup nome with
    | none => rw [hl] at hp; cases hp
    | some q =>
      rw [hl] at hp
      by_cases he : fsExists q = true
      · simp only [he, if_true, DownloadResult.sendFile.injEq] at hp
        exact hp ▸ lookup_mem_values hl
      · simp only [Bool.not_eq_true] at he
        simp [he] at hp

/-- Witness for C10: a traversal-style request name is not a key and is
redirected. -/
theorem download_excel_restricted_witness :
    download_excel "outputs" (fun _ => true) "../../etc/passwd" = .redirectIndex :=
  (download_excel_restricted "outputs" (fun _ => true) "../../etc/passwd").1 (by decide)

/-! ## Classifier lemmas (C3, C4) -/

theorem classifyKeyword_ne_pj1 (nome : String) : classifyKeyword nome ≠ some .pj1 := by
  unfold classifyKeyword
  repeat' split
  all_goals simp

theorem Slots.get_set_same (s : Slots) (k : SlotKey) (v : Option String) :
    (s.set k v).get k = v := by
  cases k <;> rfl

theorem Slots.get_set_ne (s : Slots) (k k' : SlotKey) (v : Option String) (h : k' ≠ k) :
    (s.set k v).get k' = s.get k' := by
  cases k <;> cases k' <;> simp_all [Slots.set, Slots.get]

theorem Slots.get_empty (k : SlotKey) : Slots.empty.get k = none := by
  cases k <;> rfl

theorem classStep_pj1 (st : Slots × List String) (f : String) :
    ((classStep st f).1).pj1 = st.1.pj1 := by
  unfold classStep
  cases hc : classifyKeyword (lowerStr f) with
  | none => rfl
  | some chave =>
    show ((marca st chave f (lowerStr f)).1).pj1 = st.1.pj1
    unfold marca
    split
    · have hne : chave ≠ .pj1 := fun h => classifyKeyword_ne_pj1 _ (h ▸ hc)
      cases chave <;> simp_all [Slots.set]
    · rfl

theorem foldl_classStep_pj1 (files : List String) (st : Slots × List String) :
    ((files.foldl classStep st).1).pj1 = st.1.pj1 := by
  induction files generalizing st with
  | nil => rfl
  | cons f t ih => rw [List.foldl_cons, ih, classStep_pj1]

theorem classPass_pj1 (files : List String) : (classPass files).1.pj1 = none :=
  foldl_classStep_pj1 files _

/-- Keyword slots only ever hold files whose lowered name was recorded in
`usados`. -/
def slotsUsadosInv (st : Slots × List String) : Prop :=
  ∀ k, k ≠ SlotKey.pj1 → ∀ g, st.1.get k = some g → lowerStr g ∈ st.2

theorem classStep_inv {st : Slots × List String} (f : String)
    (h : slotsUsadosInv st) : slotsUsadosInv (classStep st f) := by
  intro k hk g hg
  cases hc : classifyKeyword (lowerStr f) with
  | none =>
    have hg2 : st.1.get k = some g := by
      unfold classStep at hg; rw [hc] at hg; exact hg
    have hgoal : lowerStr g ∈ st.2 := h k hk g hg2
    unfold classStep; rw [hc]; exact hgoal
  | some chave =>
    have hg2 : (marca st chave f (lowerStr f)).1.get k = some g := by
      unfold classStep at hg; rw [hc] at hg; exact hg
    have hgoal : lowerStr g ∈ (marca st chave f (lowerStr f)).2 := by
      unfold marca at hg2 ⊢
      by_cases hempty : st.1.get chave = none
      · rw [if_pos hempty] at hg2 ⊢
        dsimp only at hg2 ⊢
        by_cases hkc : k = chave
        · subst hkc
          rw [Slots.get_set_same] at hg2
          cases hg2
          exact List.mem_cons_self _ _
        · rw [Slots.get_set_ne _ _ _ _ hkc] at hg2
          exact List.mem_cons_of_mem _ (h k hk g hg2)
      · rw [if_neg hempty] at hg2 ⊢
        exact h k hk g hg2
    unfold classStep; rw [hc]; exact hgoal

theorem classPass_inv (files : List String) : slotsUsadosInv (classPass files) := by
  have main : ∀ (fs : List String) (st : Slots × List String), slotsUsadosInv st →
      slotsUsadosInv (fs.foldl classStep st) := by
    intro fs
    induction fs with
    | nil => intro st h; exact h
    | cons f t ih => intro st h; exact ih _ (classStep_inv f h)
  refine main files _ ?_
  intro k _ g hg
  rw [Slots.get_empty] at hg
  cases hg

theorem classificar_pj1 (files : List String) :
    (classificar_arquivos files).1.pj1 = (naoUsados files).head? := by
  unfold classificar_arquivos
  cases hn : naoUsados files with
  | nil => simpa using classPass_pj1 files
  | cons f t => simp [classPass_pj1 files]

theorem classificar_get_ne_pj1 (files : List String) (k : SlotKey)
    (hk : k ≠ SlotKey.pj1) :
    (classificar_arquivos files).1.get k = (classPass files).1.get k := by
  unfold classificar_arquivos
  cases hn : naoUsados files with
  | nil => rfl
  | cons f t =>
    simp only [classPass_pj1 files, if_true]
    cases k <;> simp_all [Slots.get]

theorem classificar_keyword_slots (files : List String) (k : SlotKey)
    (hk : k ≠ SlotKey.pj1) (g : String)
    (hg : (classificar_arquivos files).1.get k = some g) :
    lowerStr g ∈ (classPass files).2 := by
  rw [classificar_get_ne_pj1 files k hk] at hg
  exact classPass_inv files k hk g hg

/-- C3 (amended): only the first file whose lowered name was not marked as
used falls back to the `pj1` slot; every other such unmatched file is
assigned to no slot at all (the keyword slots hold only files whose
lowered names were marked used). -/
theorem unmatched_fallback_first_only (files : List String) :
    (classificar_arquivos files).1.pj1 = (naoUsados files).head?
    ∧ ∀ g ∈ naoUsados files, (naoUsados files).head? ≠ some g →
        ∀ k, (classificar_arquivos files).1.get k ≠ some g := by
  refine ⟨classificar_pj1 files, ?_⟩
  intro g hg hne k hk
  by_cases hkp : k = SlotKey.pj1
  · subst hkp
    rw [show (classificar_arquivos files).1.get .pj1 = (classificar_arquivos files).1.pj1
      from rfl, classificar_pj1] at hk
    exact hne hk
  · have hmem := classificar_keyword_slots files k hkp g hk
    unfold naoUsados at hg
    have hno := (List.mem_filter.mp hg).2
    rw [Bool.not_eq_true'] at hno
    have hyes : (classPass files).2.contains (lowerStr g) = true := List.elem_iff.mpr hmem
    rw [hno] at hyes
    cases hyes

/-- C3 witness: with `["a.xlsx", "b.xlsx"]` the fallback assigns the first
unmatched file and leaves the second without a slot. -/
theorem unmatched_fallback_first_only_witness :
    (classificar_arquivos ["a.xlsx", "b.xlsx"]).1.pj1
        = (naoUsados ["a.xlsx", "b.xlsx"]).head?
    ∧ (classificar_arquivos ["a.xlsx", "b.xlsx"]).1.get .seg ≠ some "b.xlsx" :=
  ⟨(unmatched_fallback_first_only ["a.xlsx", "b.xlsx"]).1,
   (unmatched_fallback_first_only ["a.xlsx", "b.xlsx"]).2 "b.xlsx" (by decide) (by decide) .seg⟩

/-- C3 counterexample: `"b.xlsx"` matches no keyword, yet after
classification of `["a.xlsx", "b.xlsx"]` it sits in none of the ten slots —
refuting «each uploaded file is assigned to exactly one of the ten slots»
and «every unmatched file is assigned to the base/pj1 slot». -/
theorem unmatched_fallback_counterexample :
    classifyKeyword (lowerStr "b.xlsx") = none
    ∧ (allSlotKeys.all (fun k =>
        !((classificar_arquivos ["a.xlsx", "b.xlsx"]).1.get k == some "b.xlsx"))) = true := by
  exact ⟨by decide, by decide⟩

/-- C4: the classifier is the first-match scan over the spec's fixed
keyword precedence list; the matched slot is filled only while still
empty; and a name containing two keywords goes to the earlier one's slot
(here `seguro` beats `câmbio` wherever they sit in the name). -/
theorem keyword_precedence :
    (∀ nome, classifyKeyword nome = firstMatchSpec nome)
    ∧ (∀ (st : Slots × List String) (f : String) (chave : SlotKey),
        classifyKeyword (lowerStr f) = some chave →
        (classStep st f).1.get chave =
          (if st.1.get chave = none then some f else st.1.get chave))
    ∧ classifyKeyword (lowerStr "Relatório CÂMBIO e SEGURO.XLSX") = some .seg := by
  refine ⟨?_, ?_, by decide⟩
  · intro nome
    unfold classifyKeyword firstMatchSpec keywordOrder
    simp only [List.findSome?_cons, List.any_cons, List.any_nil, Bool.or_false,
      List.findSome?_nil]
    repeat' split
    all_goals simp_all
  · intro st f chave hc
    unfold classStep
    rw [hc]
    show (marca st chave f (lowerStr f)).1.get chave = _
    unfold marca
    by_cases hempty : st.1.get chave = none
    · rw [if_pos hempty, if_pos hempty]
      dsimp only
      exact Slots.get_set_same _ _ _
    · rw [if_neg hempty, if_neg hempty]

/-- C4 witness: a file whose name contains `seguro` fills the empty `seg`
slot. -/
theorem keyword_precedence_witness :
    (classStep (Slots.empty, []) "Seguro PJ.xlsx").1.get .seg = some "Seguro PJ.xlsx" := by
  rw [keyword_precedence.2.1 (Slots.empty, []) "Seguro PJ.xlsx" .seg (by decide)]
  decide

/-! ## Substrings of the missing-slots message (C2) -/

theorem toList_append (s t : String) : (s ++ t).toList = s.toList ++ t.toList :=
  String.data_append s t

theorem startsWithL_append (p r : List Char) : startsWithL p (p ++ r) = true := by
  induction p with
  | nil => rfl
  | cons a as ih => simp [startsWithL, ih]

theorem containsL_of_startsWithL {p s : List Char} (h : startsWithL p s = true) :
    containsL p s = true := by
  cases s with
  | nil => exact h
  | cons b bs => simp [containsL, h]

theorem containsL_append_left {p t : List Char} (s : List Char)
    (h : containsL p t = true) : containsL p (s ++ t) = true := by
  induction s with
  | nil => exact h
  | cons a as ih => simp [containsL, ih]

theorem containsL_join {k : String} {parts : List String} (h : k ∈ parts) :
    containsL k.toList (joinCommaSpace parts).toList = true := by
  induction parts with
  | nil => cases h
  | cons x rest ih =>
    cases h with
    | head =>
      cases rest with
      | nil =>
        show containsL k.toList (joinCommaSpace [k]).toList = true
        unfold joinCommaSpace
        exact containsL_of_startsWithL (by simpa using startsWithL_append k.toList [])
      | cons y rest2 =>
        show containsL k.toList (joinCommaSpace (k :: y :: rest2)).toList = true
        unfold joinCommaSpace
        rw [toList_append, toList_append, List.append_assoc]
        exact containsL_of_startsWithL (startsWithL_append _ _)
    | tail _ hmem =>
      cases rest with
      | nil => cases hmem
      | cons y rest2 =>
        unfold joinCommaSpace
        rw [toList_append, toList_append, List.append_assoc]
        exact containsL_append_left _ (containsL_append_left _ (ih hmem))

theorem isSubstr_missingMsg {k : String} {faltando : List String} (h : k ∈ faltando) :
    isSubstr k (missingMsg faltando) = true := by
  unfold isSubstr missingMsg
  rw [toList_append]
  exact containsL_append_left _ (containsL_join h)

/-- C2: whenever classification leaves at least one slot unfilled, the run
aborts with a single message naming every missing slot (each missing slot
name occurs in that one message), the engine is never invoked, and no
output tables are produced. -/
theorem missing_sources_abort (competencia : String) (files : List String)
    (load : SlotKey → String → List LineItem)
    (hcomp : matchCompetencia competencia = true)
    (hfiles : files.headD "" ≠ "")
    (hmiss : (classificar_arquivos files).2 ≠ []) :
    processar competencia files load
        = .abort [missingMsg (classificar_arquivos files).2, hintMsg]
    ∧ (∀ k ∈ (classificar_arquivos files).2,
        isSubstr k (missingMsg (classificar_arquivos files).2) = true)
    ∧ ∀ dfF dfJ ctx, processar competencia files load ≠ .render dfF dfJ ctx := by
  have h2 : (files.headD "" == "") = false := by
    rw [beq_eq_false_iff_ne]
    exact hfiles
  have hproc : processar competencia files load
      = .abort [missingMsg (classificar_arquivos files).2, hintMsg] := by
    unfold processar
    rw [hcomp, h2]
    simp only [Bool.not_true, Bool.false_eq_true, if_false]
    rw [if_pos hmiss]
  refine ⟨hproc, fun k hk => isSubstr_missingMsg hk, ?_⟩
  intro dfF dfJ ctx hcontra
  rw [hproc] at hcontra
  cases hcontra

/-- C2 witness: nine files covering the nine keyword slots leave `pj1`
missing; the run aborts naming `pj1` and renders nothing. -/
theorem missing_sources_abort_witness :
    processar "2025-12" filesNine (fun _ _ => [])
        = .abort [missingMsg (classificar_arquivos filesNine).2, hintMsg]
    ∧ (classificar_arquivos filesNine).2 = ["pj1"]
    ∧ isSubstr "pj1" (missingMsg (classificar_arquivos filesNine).2) = true :=
  ⟨(missing_sources_abort "2025-12" filesNine (fun _ _ => []) (by decide) (by decide)
      (by decide)).1,
   by decide,
   (missing_sources_abort "2025-12" filesNine (fun _ _ => []) (by decide) (by decide)
      (by decide)).2.1 "pj1" (by decide)⟩

/-! ## Conservation of money through the engine (C1) -/

theorem sum_map_filter_split (l : List LineItem) (p : LineItem → Bool) :
    ((l.filter p).map LineItem.amount).sum
      + ((l.filter (fun i => !p i)).map LineItem.amount).sum
      = (l.map LineItem.amount).sum := by
  induction l with
  | nil => simp
  | cons i t ih =>
    cases hp : p i with
    | true =>
      simp only [List.filter_cons, hp, Bool.not_true, Bool.false_eq_true, if_false,
        if_true, ite_true, ite_false, List.map_cons, List.sum_cons]
      rw [← ih]; ring
    | false =>
      simp only [List.filter_cons, hp, Bool.not_false, Bool.false_eq_true, if_false,
        if_true, ite_true, ite_false, List.map_cons, List.sum_cons]
      rw [← ih]; ring

theorem totalFor_filter_ne (l : UnifiedLedger) (k k' : String) (h : k' ≠ k) :
    totalFor (l.filter (fun i => !(i.advisor_key == k))) k' = totalFor l k' := by
  unfold totalFor
  rw [List.filter_filter]
  have hfil : (l.filter (fun a => a.advisor_key == k' && !(a.advisor_key == k)))
      = l.filter (fun i => i.advisor_key == k') := by
    apply List.filter_congr
    intro i _
    cases hik : i.advisor_key == k' with
    | false => simp [hik]
    | true =>
      have hi : i.advisor_key = k' := by simpa using hik
      rw [hi]
      simp [beq_eq_false_iff_ne.mpr h]
  rw [hfil]

theorem groupSum : ∀ (ks : List String) (l : UnifiedLedger), ks.Nodup →
    (∀ i ∈ l, i.advisor_key ∈ ks) →
    (ks.map (totalFor l)).sum = (l.map LineItem.amount).sum := by
  intro ks
  induction ks with
  | nil =>
    intro l _ hcov
    cases l with
    | nil => simp
    | cons i t => exact absurd (hcov i (List.mem_cons_self i t)) (by simp)
  | cons k ks ih =>
    intro l hnd hcov
    have hknotin : k ∉ ks := (List.nodup_cons.mp hnd).1
    have hndks : ks.Nodup := (List.nodup_cons.mp hnd).2
    set l2 := l.filter (fun i => !(i.advisor_key == k)) with hl2
    have hcov2 : ∀ i ∈ l2, i.advisor_key ∈ ks := by
      intro i hi
      have hmem := List.mem_filter.mp hi
      have hne : i.advisor_key ≠ k := by
        have := hmem.2
        simpa using this
      rcases List.mem_cons.mp (hcov i hmem.1) with h | h
      · exact absurd h hne
      · exact h
    have hmaps : (ks.map (totalFor l)).sum = (ks.map (totalFor l2)).sum := by
      congr 1
      apply List.map_congr_left
      intro k' hk'
      have : k' ≠ k := fun he => hknotin (he ▸ hk')
      exact (totalFor_filter_ne l k k' this).symm
    rw [List.map_cons, List.sum_cons, hmaps, ih l2 hndks hcov2]
    show totalFor l k + _ = _
    unfold totalFor
    rw [hl2]
    exact sum_map_filter_split l (fun i => i.advisor_key == k)

theorem lookup_map_self (ks : List String) (f : String → ℚ) (k : String) (hk : k ∈ ks) :
    (ks.map (fun k => (k, f k))).lookup k = some (f k) := by
  induction ks with
  | nil => cases hk
  | cons a t ih =>
    rw [List.map_cons, List.lookup_cons]
    cases hb : k == a with
    | true =>
      have : k = a := by simpa using hb
      rw [this]
    | false =>
      have hne : k ≠ a := by simpa using hb
      rcases List.mem_cons.mp hk with h | h
      · exact absurd h hne
      · exact ih h

/-- C1: conservation through the engine — the exact sum of `amount` over
the whole ledger `df_juntar` equals the exact sum of the per-advisor
totals of `df_final`, and each advisor's aggregate row carries exactly the
sum of that advisor's ledger rows. -/
theorem conservation (pj1 seg cam co_ter co_xpvp cre xpcs lan_man tim_rep lan_pro :
    List LineItem) :
    (((calcular_comissoes pj1 seg cam co_ter co_xpvp cre xpcs lan_man tim_rep
        lan_pro).1.map Prod.snd).sum
      = ((calcular_comissoes pj1 seg cam co_ter co_xpvp cre xpcs lan_man tim_rep
        lan_pro).2.map LineItem.amount).sum)
    ∧ ∀ k, k ∈ (calcular_comissoes pj1 seg cam co_ter co_xpvp cre xpcs lan_man tim_rep
        lan_pro).2.map LineItem.advisor_key →
      (calcular_comissoes pj1 seg cam co_ter co_xpvp cre xpcs lan_man tim_rep
        lan_pro).1.lookup k
        = some ((((calcular_comissoes pj1 seg cam co_ter co_xpvp cre xpcs lan_man tim_rep
            lan_pro).2.filter (fun i => i.advisor_key == k)).map LineItem.amount).sum) := by
  set L := df_juntar_of pj1 seg cam co_ter co_xpvp cre xpcs lan_man tim_rep lan_pro with hL
  constructor
  · show ((df_final_of L).map Prod.snd).sum = (L.map LineItem.amount).sum
    unfold df_final_of
    rw [List.map_map]
    have : (Prod.snd ∘ fun k => (k, totalFor L k)) = totalFor L := rfl
    rw [this]
    apply groupSum (advisorKeys L) L (List.nodup_dedup _)
    intro i hi
    exact List.mem_dedup.mpr (List.mem_map.mpr ⟨i, hi, rfl⟩)
  · intro k hk
    show (df_final_of L).lookup k = _
    unfold df_final_of
    rw [lookup_map_self (advisorKeys L) (totalFor L) k (List.mem_dedup.mpr hk)]
    rfl

/-- C1 witness: the spec's §8 scenario — `pj1 = [A1, 100]`,
`seguro = [A1, 50.005]`, the other sources empty. -/
theorem conservation_witness :
    (calcular_comissoes [⟨"A1", .pj1, 100⟩] [⟨"A1", .seg, 50005/1000⟩]
        [] [] [] [] [] [] [] []).1.lookup "A1"
      = some ((((calcular_comissoes [⟨"A1", .pj1, 100⟩] [⟨"A1", .seg, 50005/1000⟩]
          [] [] [] [] [] [] [] []).2.filter
            (fun i => i.advisor_key == "A1")).map LineItem.amount).sum) :=
  (conservation [⟨"A1", .pj1, 100⟩] [⟨"A1", .seg, 50005/1000⟩]
    [] [] [] [] [] [] [] []).2 "A1" (by decide)

/-! ## Rounding and the dashboard (C5, C6, C9) -/

theorem montar_snd (df : DataFrame) :
    (montar_contexto_dashboard df).2 = roundNumericCols df := by
  simp only [montar_contexto_dashboard]
  split <;> rfl

theorem roundHalfEven_intCast (n : ℤ) : roundHalfEven (n : ℚ) = n := by
  unfold roundHalfEven
  rw [Int.floor_intCast, sub_self]
  norm_num

theorem round2_idem (q : ℚ) : round2 (round2 q) = round2 q := by
  unfold round2
  rw [div_mul_cancel₀ _ (show (100 : ℚ) ≠ 0 by norm_num), roundHalfEven_intCast]

theorem roundCol_idem (c : ColData) : roundCol (roundCol c) = roundCol c := by
  cases c with
  | num vs =>
    show ColData.num ((vs.map round2).map round2) = ColData.num (vs.map round2)
    rw [List.map_map]
    congr 1
    apply List.map_congr_left
    intro a _
    exact round2_idem a
  | str vs => rfl

theorem roundNumericCols_idem (df : DataFrame) :
    roundNumericCols (roundNumericCols df) = roundNumericCols df := by
  unfold roundNumericCols
  rw [List.map_map]
  apply List.map_congr_left
  intro c _
  show (c.1, roundCol (roundCol c.2)) = (c.1, roundCol c.2)
  rw [roundCol_idem]

theorem getCol_roundNumericCols (df : DataFrame) (name : String) :
    getCol (roundNumericCols df) name = Option.map roundCol (getCol df name) := by
  unfold getCol roundNumericCols
  rw [List.find?_map]
  have hcomp : ((fun c : String × ColData => c.1 == name)
      ∘ (fun c : String × ColData => (c.1, roundCol c.2)))
      = (fun c : String × ColData => c.1 == name) := rfl
  rw [hcomp]
  cases List.find? (fun c : String × ColData => c.1 == name) df <;> rfl

/-- C9: `montar_contexto_dashboard` mutates its `df_final` argument in
place — afterwards the caller's DataFrame has the same columns in the same
order, every text column unchanged, and every numeric column rounded
entry-wise (row order preserved) to 2 decimals. -/
theorem montar_rounds_in_place (df : DataFrame) :
    (montar_contexto_dashboard df).2.length = df.length
    ∧ (∀ i (h1 : i < df.length) (h2 : i < (montar_contexto_dashboard df).2.length),
        ((montar_contexto_dashboard df).2.get ⟨i, h2⟩).1 = (df.get ⟨i, h1⟩).1)
    ∧ (∀ i (h1 : i < df.length) (h2 : i < (montar_contexto_dashboard df).2.length)
        (vs : List String), (df.get ⟨i, h1⟩).2 = .str vs →
        ((montar_contexto_dashboard df).2.get ⟨i, h2⟩).2 = .str vs)
    ∧ (∀ i (h1 : i < df.length) (h2 : i < (montar_contexto_dashboard df).2.length)
        (vs : List ℚ), (df.get ⟨i, h1⟩).2 = .num vs →
        ((montar_contexto_dashboard df).2.get ⟨i, h2⟩).2 = .num (vs.map round2)) := by
  refine ⟨?_, ?_, ?_, ?_⟩
  · simp [montar_snd, roundNumericCols]
  · intro i h1 h2
    simp only [montar_snd, roundNumericCols, List.get_eq_getElem, List.getElem_map]
  · intro i h1 h2 vs hvs
    simp only [montar_snd, roundNumericCols, List.get_eq_getElem, List.getElem_map]
    simp only [List.get_eq_getElem] at hvs
    rw [hvs]
    rfl
  · intro i h1 h2 vs hvs
    simp only [montar_snd, roundNumericCols, List.get_eq_getElem, List.getElem_map]
    simp only [List.get_eq_getElem] at hvs
    rw [hvs]
    rfl

/-- C9 witness: on a two-column frame the text column survives and the
numeric column is rounded entry-wise. -/
theorem montar_rounds_in_place_witness :
    ((montar_contexto_dashboard dfSample).2.get ⟨1, by decide⟩).2
      = ColData.num ([1, 2, 6].map round2) :=
  (montar_rounds_in_place dfSample).2.2.2 1 (by decide) (by decide) [1, 2, 6] (by decide)

/-- C5: in the context actually passed to the rendered result page (after
the `max_total`/`max_total_val` fix-up of app.py lines 421 and 557),
`max_total` is the currency-formatted true maximum of the
`"Valor Total Assessor"` column — in both the `visualizar_antigo` and the
`processar` flow. -/
theorem max_total_is_true_max (df : DataFrame) (vs : List ℚ)
    (hcol : getCol df "Valor Total Assessor" = some (.num vs)) (_hne : vs ≠ []) :
    (visualizar_ctx df).max_total = brl (maxQ (vs.map round2))
    ∧ (processar_ctx df).max_total = brl (maxQ (vs.map round2)) := by
  have hcol2 : getCol (roundNumericCols df) "Valor Total Assessor"
      = some (.num (vs.map round2)) := by
    rw [getCol_roundNumericCols, hcol]
    rfl
  have hcol3 : getCol (roundNumericCols (roundNumericCols df)) "Valor Total Assessor"
      = some (.num (vs.map round2)) := by
    rw [roundNumericCols_idem]
    exact hcol2
  constructor
  · show (fixMaxTotal (montar_contexto_dashboard df).1).max_total = _
    simp only [montar_contexto_dashboard]
    rw [hcol2]
    rfl
  · show (fixMaxTotal (montar_contexto_dashboard (roundNumericCols df)).1).max_total = _
    simp only [montar_contexto_dashboard]
    rw [hcol3]
    rfl

/-- C5 witness: a concrete aggregate whose maximum (not mean) is rendered
as `max_total`. -/
theorem max_total_is_true_max_witness :
    (visualizar_ctx dfSample).max_total = brl (maxQ ([1, 2, 6].map round2))
    ∧ (processar_ctx dfSample).max_total = brl (maxQ ([1, 2, 6].map round2)) :=
  max_total_is_true_max dfSample [1, 2, 6] (by decide) (by decide)

theorem getCol_dfFinalFrame (p : List (String × ℚ)) :
    getCol (roundNumericCols (dfFinalFrame p)) "Valor Total Assessor"
      = some (.num ((p.map Prod.snd).map round2)) := rfl

/-- C6: rounding to 2 decimals is idempotent, the whole-frame rounding is
idempotent, and in the `processar` pipeline the emitted `df_final` values
are `round2` of the *exact* engine sums — rounded once, at emission, even
though `processar` and `montar_contexto_dashboard` both apply the rounding
step. -/
theorem single_rounding_at_emission :
    (∀ q : ℚ, round2 (round2 q) = round2 q)
    ∧ (∀ df : DataFrame, roundNumericCols (roundNumericCols df) = roundNumericCols df)
    ∧ ∀ pj1 seg cam co_ter co_xpvp cre xpcs lan_man tim_rep lan_pro : List LineItem,
        getCol (montar_contexto_dashboard (roundNumericCols (dfFinalFrame
            (calcular_comissoes pj1 seg cam co_ter co_xpvp cre xpcs lan_man tim_rep
              lan_pro).1))).2 "Valor Total Assessor"
          = some (ColData.num ((advisorKeys (calcular_comissoes pj1 seg cam co_ter
              co_xpvp cre xpcs lan_man tim_rep lan_pro).2).map
              (fun k => round2 (totalFor (calcular_comissoes pj1 seg cam co_ter
                co_xpvp cre xpcs lan_man tim_rep lan_pro).2 k)))) := by
  refine ⟨round2_idem, roundNumericCols_idem, ?_⟩
  intro pj1 seg cam co_ter co_xpvp cre xpcs lan_man tim_rep lan_pro
  rw [montar_snd, roundNumericCols_idem, getCol_dfFinalFrame]
  show some (ColData.num (((df_final_of _).map Prod.snd).map round2)) = _
  unfold df_final_of
  rw [List.map_map, List.map_map]
  rfl

/-! ## The currency formatter (C8) -/

theorem mem_natDigits (n : ℕ) : ∀ c ∈ natDigits n, ∃ d, d < 10 ∧ c = digitChar d := by
  induction n using natDigits.induct with
  | case1 n h =>
    intro c hc
    rw [natDigits] at hc
    simp only [h, dif_pos, List.mem_singleton] at hc
    exact ⟨n, h, hc⟩
  | case2 n h ih =>
    intro c hc
    rw [natDigits] at hc
    simp only [h, dif_neg, not_false_iff] at hc
    rcases List.mem_append.mp hc with h2 | h2
    · exact ih c h2
    · rcases List.mem_singleton.mp h2 with rfl
      exact ⟨n % 10, Nat.mod_lt n (by omega), rfl⟩

theorem swapSep_digitChar {d : ℕ} (h : d < 10) : swapSep (digitChar d) = digitChar d := by
  interval_cases d <;> decide

theorem digitChar_ne_v {d : ℕ} (h : d < 10) : digitChar d ≠ 'v' := by
  interval_cases d <;> decide

theorem group3Rev_map (g : Char → Char) (sep : Char) (ds : List Char) :
    (group3Rev sep ds).map g = group3Rev (g sep) (ds.map g) := by
  induction ds using group3Rev.induct sep with
  | case1 ds h =>
    conv_lhs => rw [group3Rev, if_pos h]
    conv_rhs => rw [group3Rev]
    rw [if_pos (by simpa using h)]
  | case2 ds h ih =>
    conv_lhs => rw [group3Rev, if_neg h]
    conv_rhs => rw [group3Rev]
    rw [if_neg (by simpa using h)]
    simp only [List.map_append, List.map_cons, List.map_take, List.map_drop, ih]

theorem mem_group3Rev (sep : Char) (ds : List Char) :
    ∀ c ∈ group3Rev sep ds, c ∈ ds ∨ c = sep := by
  induction ds using group3Rev.induct sep with
  | case1 ds h =>
    intro c hc
    rw [group3Rev] at hc
    simp only [h, if_pos] at hc
    exact Or.inl hc
  | case2 ds h ih =>
    intro c hc
    rw [group3Rev] at hc
    simp only [h, if_neg, not_false_iff] at hc
    rcases List.mem_append.mp hc with h2 | h2
    · exact Or.inl (List.take_subset _ _ h2)
    · rcases List.mem_cons.mp h2 with rfl | h3
      · exact Or.inr rfl
      · rcases ih c h3 with h4 | h4
        · exact Or.inl (List.drop_subset _ _ h4)
        · exact Or.inr h4

theorem mem_twoDigits (m : ℕ) (hm : m < 100) :
    ∀ c ∈ twoDigits m, ∃ d, d < 10 ∧ c = digitChar d := by
  intro c hc
  rcases List.mem_cons.mp hc with rfl | hc2
  · exact ⟨m / 10, by omega, rfl⟩
  · rcases List.mem_singleton.mp hc2 with rfl
    exact ⟨m % 10, by omega, rfl⟩

theorem mem_group3_natDigits (sep : Char) (n : ℕ) :
    ∀ c ∈ group3 sep (natDigits n), (∃ d, d < 10 ∧ c = digitChar d) ∨ c = sep := by
  intro c hc
  unfold group3 at hc
  rw [List.mem_reverse] at hc
  rcases mem_group3Rev sep _ c hc with h | h
  · rw [List.mem_reverse] at h
    exact Or.inl (mem_natDigits n c h)
  · exact Or.inr h

theorem mem_formatFixed2 (thou dec : Char) (q : ℚ) :
    ∀ c ∈ formatFixed2 thou dec q,
      (∃ d, d < 10 ∧ c = digitChar d) ∨ c = '-' ∨ c = thou ∨ c = dec := by
  intro c hc
  unfold formatFixed2 at hc
  simp only [List.append_assoc, List.mem_append, List.mem_cons] at hc
  rcases hc with hs | hg | rfl | ht
  · split at hs
    · rcases List.mem_singleton.mp hs with rfl
      exact Or.inr (Or.inl rfl)
    · cases hs
  · rcases mem_group3_natDigits thou _ c hg with h | rfl
    · exact Or.inl h
    · exact Or.inr (Or.inr (Or.inl rfl))
  · exact Or.inr (Or.inr (Or.inr rfl))
  · exact Or.inl (mem_twoDigits _ (Nat.mod_lt _ (by omega)) c ht)

theorem replace_chain_eq_swap (s : List Char) (h : ∀ c ∈ s, c ≠ 'v') :
    replaceChar 'v' '.' (replaceChar '.' ',' (replaceChar ',' 'v' s)) = s.map swapSep := by
  unfold replaceChar
  rw [List.map_map, List.map_map]
  apply List.map_congr_left
  intro c hc
  have hcv := h c hc
  show (if ((if ((if c == ',' then 'v' else c) : Char) == '.' then ','
      else if c == ',' then 'v' else c) : Char) == 'v' then '.'
      else if ((if c == ',' then 'v' else c) : Char) == '.' then ','
      else if c == ',' then 'v' else c) = swapSep c
  unfold swapSep
  by_cases h1 : c = ','
  · subst h1; decide
  · by_cases h2 : c = '.'
    · subst h2; decide
    · simp [h1, h2, hcv]

theorem map_swapSep_natDigits (n : ℕ) : (natDigits n).map swapSep = natDigits n := by
  conv_rhs => rw [← List.map_id (natDigits n)]
  apply List.map_congr_left
  intro a ha
  rcases mem_natDigits n a ha with ⟨d, hd, rfl⟩
  simp [swapSep_digitChar hd]

theorem map_swapSep_twoDigits (m : ℕ) (hm : m < 100) :
    (twoDigits m).map swapSep = twoDigits m := by
  unfold twoDigits
  simp [swapSep_digitChar (show m / 10 < 10 by omega),
    swapSep_digitChar (show m % 10 < 10 by omega)]

theorem map_swapSep_formatFixed2 (q : ℚ) :
    (formatFixed2 ',' '.' q).map swapSep = formatFixed2 '.' ',' q := by
  simp only [formatFixed2]
  rw [List.map_append, List.map_append, List.map_cons]
  congr 1
  · congr 1
    · split <;> decide
    · unfold group3
      rw [List.map_reverse, group3Rev_map, List.map_reverse, map_swapSep_natDigits,
        show swapSep ',' = '.' from by decide]
  · rw [show swapSep '.' = ',' from by decide,
      map_swapSep_twoDigits _ (Nat.mod_lt _ (by omega))]

theorem brl_some_eq (q : ℚ) :
    brl (some q) = String.mk ("R$ ".toList ++ formatFixed2 '.' ',' q) := by
  show String.mk (replaceChar 'v' '.' (replaceChar '.' ','
      (replaceChar ',' 'v' ("R$ ".toList ++ formatFixed2 ',' '.' q))))
    = String.mk ("R$ ".toList ++ formatFixed2 '.' ',' q)
  congr 1
  rw [replace_chain_eq_swap]
  · rw [List.map_append, show ("R$ ".toList.map swapSep) = "R$ ".toList from by decide,
      map_swapSep_formatFixed2 q]
  · intro c hc
    rcases List.mem_append.mp hc with h | h
    · simp only [show ("R$ ".toList : List Char) = ['R', '$', ' '] from rfl,
        List.mem_cons, List.mem_singleton] at h
      rcases h with rfl | rfl | rfl | h
      · decide
      · decide
      · decide
      · cases h
    · rcases mem_formatFixed2 ',' '.' q c h with ⟨d, hd, rfl⟩ | rfl | rfl | rfl
      · exact digitChar_ne_v hd
      · decide
      · decide
      · decide

theorem roundHalfEven_zero : roundHalfEven 0 = 0 := by
  have h := roundHalfEven_intCast 0
  simpa using h

theorem natDigits_zero : natDigits 0 = [digitChar 0] := by
  rw [natDigits]
  norm_num

theorem formatFixed2_zero (thou dec : Char) :
    formatFixed2 thou dec 0 = [digitChar 0, dec, digitChar 0, digitChar 0] := by
  simp only [formatFixed2]
  rw [show ((0 : ℚ) * 100) = ((0 : ℤ) : ℚ) from by norm_num, roundHalfEven_intCast]
  norm_num [natDigits_zero, twoDigits]
  unfold group3
  rw [show ([digitChar 0].reverse : List Char) = [digitChar 0] from rfl, group3Rev]
  norm_num

/-- C8: the currency formatter returns `"R$ "` followed by the value with
two decimal places, `.` as thousands separator, `,` as decimal separator
(the three `replace` calls amount to exchanging the two separators), and
maps NaN to `"R$ 0,00"` instead of failing. -/
theorem brl_formats_currency (valor : Option ℚ) : brl valor = brlSpec valor := by
  cases valor with
  | some q => rw [brl_some_eq q]; rfl
  | none =>
    show brl (some 0) = "R$ 0,00"
    rw [brl_some_eq 0, formatFixed2_zero]
    decide

/-! ## String order lemmas for the stored-result listing (C7) -/

theorem lexLt_cons_iff {a b : Char} {as bs : List Char} :
    lexLt (a :: as) (b :: bs) = true ↔ a < b ∨ (a = b ∧ lexLt as bs = true) := by
  simp [lexLt]

theorem lexLt_irrefl (a : List Char) : lexLt a a = false := by
  induction a with
  | nil => rfl
  | cons c cs ih =>
    rw [Bool.eq_false_iff]
    intro h
    rcases lexLt_cons_iff.mp h with h1 | ⟨_, h2⟩
    · exact absurd h1 (lt_irrefl c)
    · rw [ih] at h2; cases h2

theorem lexLt_asymm : ∀ {a b : List Char}, lexLt a b = true → lexLt b a = false := by
  intro a
  induction a with
  | nil =>
    intro b h
    cases b with
    | nil => cases h
    | cons d ds => rfl
  | cons c cs ih =>
    intro b h
    cases b with
    | nil => cases h
    | cons d ds =>
      rw [Bool.eq_false_iff]
      intro hcontra
      rcases lexLt_cons_iff.mp h with h1 | ⟨rfl, h2⟩
      · rcases lexLt_cons_iff.mp hcontra with h3 | ⟨h3, _⟩
        · exact absurd (lt_trans h1 h3) (lt_irrefl c)
        · exact absurd h1 (h3 ▸ lt_irrefl d)
      · rcases lexLt_cons_iff.mp hcontra with h3 | ⟨_, h4⟩
        · exact absurd h3 (lt_irrefl c)
        · rw [ih h2] at h4; cases h4

theorem lexLt_trans : ∀ {a b c : List Char},
    lexLt a b = true → lexLt b c = true → lexLt a c = true := by
  intro a
  induction a with
  | nil =>
    intro b c hab hbc
    cases c with
    | nil =>
      cases b with
      | nil => cases hab
      | cons y ys => cases hbc
    | cons z zs => rfl
  | cons x xs ih =>
    intro b c hab hbc
    cases b with
    | nil => cases hab
    | cons y ys =>
      cases c with
      | nil => cases hbc
      | cons z zs =>
        rcases lexLt_cons_iff.mp hab with h1 | ⟨rfl, h2⟩
        · rcases lexLt_cons_iff.mp hbc with h3 | ⟨rfl, h4⟩
          · exact lexLt_cons_iff.mpr (Or.inl (lt_trans h1 h3))
          · exact lexLt_cons_iff.mpr (Or.inl h1)
        · rcases lexLt_cons_iff.mp hbc with h3 | ⟨rfl, h4⟩
          · exact lexLt_cons_iff.mpr (Or.inl h3)
          · exact lexLt_cons_iff.mpr (Or.inr ⟨rfl, ih h2 h4⟩)

theorem lexLt_connex : ∀ {a b : List Char},
    lexLt a b = false → lexLt b a = false → a = b := by
  intro a
  induction a with
  | nil =>
    intro b hab _
    cases b with
    | nil => rfl
    | cons y ys => cases hab
  | cons x xs ih =>
    intro b hab hba
    cases b with
    | nil => cases hba
    | cons y ys =>
      rcases lt_trichotomy x y with h | h | h
      · rw [lexLt_cons_iff.mpr (Or.inl h)] at hab; cases hab
      · subst h
        have h2 : lexLt xs ys = false := by
          rw [Bool.eq_false_iff]
          intro hc
          rw [lexLt_cons_iff.mpr (Or.inr ⟨rfl, hc⟩)] at hab
          cases hab
        have h3 : lexLt ys xs = false := by
          rw [Bool.eq_false_iff]
          intro hc
          rw [lexLt_cons_iff.mpr (Or.inr ⟨rfl, hc⟩)] at hba
          cases hba
        rw [ih h2 h3]
      · rw [lexLt_cons_iff.mpr (Or.inl h)] at hba; cases hba

instance : IsTotal String strGe where
  total a b := by
    unfold strGe
    by_cases h : lexLt a.toList b.toList = true
    · exact Or.inr (lexLt_asymm h)
    · exact Or.inl (Bool.eq_false_iff.mpr h)

instance : IsTrans String strGe where
  trans a b c hab hbc := by
    unfold strGe at hab hbc ⊢
    rw [Bool.eq_false_iff]
    intro hac
    rcases eq_or_ne a.toList b.toList with he | hne
    · rw [he] at hac
      rw [hac] at hbc
      cases hbc
    · have hba : lexLt b.toList a.toList = true := by
        by_cases h : lexLt b.toList a.toList = true
        · exact h
        · exact absurd (lexLt_connex hab (Bool.eq_false_iff.mpr h)) hne
      rw [lexLt_trans hba hac] at hbc
      cases hbc

/-! ## Digit blocks and embedded timestamps (C7) -/

theorem char_toNat_eq (c d : Char) (h : c.toNat = d.toNat) : c = d :=
  Char.ext (UInt32.ext h)

theorem char_lt_iff_toNat (c d : Char) : c < d ↔ c.toNat < d.toNat := by
  rw [Char.lt_iff_val_lt_val]
  exact Iff.rfl

theorem isDigit_bounds {c : Char} (h : c.isDigit = true) :
    48 ≤ c.toNat ∧ c.toNat ≤ 57 := by
  unfold Char.isDigit at h
  simp only [Bool.and_eq_true, decide_eq_true_eq] at h
  exact ⟨h.1, h.2⟩

theorem digitsToNat_foldl (ds : List Char) (n : ℕ) :
    ds.foldl (fun n c => 10 * n + (c.toNat - 48)) n
      = n * 10 ^ ds.length + digitsToNat ds := by
  induction ds generalizing n with
  | nil => simp [digitsToNat]
  | cons c cs ih =>
    show List.foldl _ (10 * n + (c.toNat - 48)) cs = _
    rw [ih]
    have hv : digitsToNat (c :: cs) = (c.toNat - 48) * 10 ^ cs.length + digitsToNat cs := by
      show List.foldl _ (10 * 0 + (c.toNat - 48)) cs = _
      rw [ih]
      ring_nf
    rw [hv, List.length_cons]
    ring

theorem digitsToNat_cons (c : Char) (cs : List Char) :
    digitsToNat (c :: cs) = (c.toNat - 48) * 10 ^ cs.length + digitsToNat cs := by
  show List.foldl _ (10 * 0 + (c.toNat - 48)) cs = _
  rw [digitsToNat_foldl]
  ring_nf

theorem digitsToNat_append (x y : List Char) :
    digitsToNat (x ++ y) = digitsToNat x * 10 ^ y.length + digitsToNat y := by
  show (x ++ y).foldl _ 0 = _
  rw [List.foldl_append]
  rw [digitsToNat_foldl]
  rfl

theorem digitsToNat_lt (ds : List Char) (h : ∀ c ∈ ds, c.isDigit = true) :
    digitsToNat ds < 10 ^ ds.length := by
  induction ds with
  | nil => simp [digitsToNat]
  | cons c cs ih =>
    rw [digitsToNat_cons, List.length_cons]
    have hd : c.toNat - 48 ≤ 9 := by
      have := (isDigit_bounds (h c (List.mem_cons_self c cs))).2
      omega
    have hrec : digitsToNat cs < 10 ^ cs.length :=
      ih (fun x hx => h x (List.mem_cons_of_mem c hx))
    have h10 : (0:ℕ) < 10 ^ cs.length := Nat.pos_pow_of_pos _ (by omega)
    calc (c.toNat - 48) * 10 ^ cs.length + digitsToNat cs
        < (c.toNat - 48) * 10 ^ cs.length + 10 ^ cs.length := by omega
      _ = (c.toNat - 48 + 1) * 10 ^ cs.length := by ring
      _ ≤ 10 * 10 ^ cs.length := Nat.mul_le_mul_right _ (by omega)
      _ = 10 ^ (cs.length + 1) := by ring

/-- Comparing two equal-length digit blocks (with arbitrary equal-shape
tails) lexicographically is comparing their numeric values. -/
theorem lexLt_digit_blocks : ∀ (x y t u : List Char), x.length = y.length →
    (∀ c ∈ x, c.isDigit = true) → (∀ c ∈ y, c.isDigit = true) →
    (lexLt (x ++ t) (y ++ u) = true ↔
      digitsToNat x < digitsToNat y ∨ (x = y ∧ lexLt t u = true)) := by
  intro x
  induction x with
  | nil =>
    intro y t u hlen _ _
    cases y with
    | nil => simp [digitsToNat]
    | cons d ds => cases hlen
  | cons c cs ih =>
    intro y t u hlen hx hy
    cases y with
    | nil => cases hlen
    | cons d ds =>
      have hlen2 : cs.length = ds.length := by simpa using hlen
      have hcd : c.isDigit = true := hx c (List.mem_cons_self _ _)
      have hdd : d.isDigit = true := hy d (List.mem_cons_self _ _)
      have hcs : ∀ a ∈ cs, a.isDigit = true := fun a ha => hx a (List.mem_cons_of_mem _ ha)
      have hds : ∀ a ∈ ds, a.isDigit = true := fun a ha => hy a (List.mem_cons_of_mem _ ha)
      have hbc := isDigit_bounds hcd
      have hbd := isDigit_bounds hdd
      have hcslt := digitsToNat_lt cs hcs
      have hdslt := digitsToNat_lt ds hds
      have hdslt2 : digitsToNat ds < 10 ^ cs.length := by rw [hlen2]; exact hdslt
      have hexp : ∀ m : ℕ, (m + 1) * 10 ^ cs.length = m * 10 ^ cs.length + 10 ^ cs.length :=
        fun m => by ring
      rw [List.cons_append, List.cons_append, lexLt_cons_iff,
        ih ds t u hlen2 hcs hds, digitsToNat_cons, digitsToNat_cons, ← hlen2]
      constructor
      · rintro (h1 | ⟨rfl, h2 | ⟨rfl, h3⟩⟩)
        · left
          have hcd2 : c.toNat < d.toNat := (char_lt_iff_toNat c d).mp h1
          have hstep : (c.toNat - 48 + 1) * 10 ^ cs.length
              ≤ (d.toNat - 48) * 10 ^ cs.length :=
            Nat.mul_le_mul_right _ (by omega)
          have he1 := hexp (c.toNat - 48)
          omega
        · left
          omega
        · right
          exact ⟨rfl, h3⟩
      · rintro (h1 | ⟨heq, h2⟩)
        · by_cases hc : c = d
          · subst hc
            refine Or.inr ⟨rfl, Or.inl ?_⟩
            omega
          · left
            rw [char_lt_iff_toNat]
            by_contra hnd
            push_neg at hnd
            rcases Nat.lt_or_ge d.toNat c.toNat with hgt | hge
            · have hstep : (d.toNat - 48 + 1) * 10 ^ cs.length
                  ≤ (c.toNat - 48) * 10 ^ cs.length :=
                Nat.mul_le_mul_right _ (by omega)
              have he1 := hexp (d.toNat - 48)
              omega
            · exact hc (char_toNat_eq c d (by omega))
        · injection heq with hc hcs_eq
          subst hc
          subst hcs_eq
          exact Or.inr ⟨rfl, Or.inr ⟨rfl, h2⟩⟩

theorem digitsToNat_inj {x y : List Char} (hlen : x.length = y.length)
    (hx : ∀ c ∈ x, c.isDigit = true) (hy : ∀ c ∈ y, c.isDigit = true)
    (hval : digitsToNat x = digitsToNat y) : x = y := by
  by_contra hne
  by_cases hxy : lexLt x y = true
  · have := (lexLt_digit_blocks x y [] [] hlen hx hy).mp (by simpa using hxy)
    rcases this with h3 | ⟨h3, _⟩
    · omega
    · exact hne h3
  · by_cases hyx : lexLt y x = true
    · have := (lexLt_digit_blocks y x [] [] hlen.symm hy hx).mp (by simpa using hyx)
      rcases this with h3 | ⟨h3, _⟩
      · omega
      · exact hne h3.symm
    · exact hne (lexLt_connex (Bool.eq_false_iff.mpr hxy) (Bool.eq_false_iff.mpr hyx))

theorem lexLt_append_same (p x y : List Char) :
    lexLt (p ++ x) (p ++ y) = lexLt x y := by
  induction p with
  | nil => rfl
  | cons a ps ih => simp [lexLt, ih]

theorem lexLt_cons_same (a : Char) (x y : List Char) :
    lexLt (a :: x) (a :: y) = lexLt x y :=
  lexLt_append_same [a] x y

theorem isDfFinalName_decomp {s : String} (h : isDfFinalName s = true) :
    s.toList = "df_final_".toList ++ ((s.toList.drop 9).take 8
      ++ '_' :: ((s.toList.drop 18).take 6 ++ ".xlsx".toList))
    ∧ ((s.toList.drop 9).take 8).length = 8
    ∧ ((s.toList.drop 18).take 6).length = 6
    ∧ (∀ c ∈ (s.toList.drop 9).take 8, c.isDigit = true)
    ∧ (∀ c ∈ (s.toList.drop 18).take 6, c.isDigit = true) := by
  unfold isDfFinalName at h
  simp only [Bool.and_eq_true, beq_iff_eq, List.all_eq_true] at h
  obtain ⟨⟨⟨⟨⟨hlen, hpre⟩, hd1⟩, hus⟩, hd2⟩, hsuf⟩ := h
  have hlen29 : s.toList.length = 29 := by exact_mod_cast hlen
  have e2 : s.toList.drop 9 = (s.toList.drop 9).take 8 ++ (s.toList.drop 9).drop 8 :=
    (List.take_append_drop 8 _).symm
  have e3 : (s.toList.drop 9).drop 8 = s.toList.drop 17 := by
    rw [List.drop_drop]
  have m1 : s.toList.drop 17 = '_' :: s.toList.drop 18 := by
    conv_lhs => rw [← List.take_append_drop 1 (s.toList.drop 17)]
    rw [hus, List.drop_drop, List.singleton_append]
  have m2 : s.toList.drop 18 = (s.toList.drop 18).take 6 ++ s.toList.drop 24 := by
    conv_lhs => rw [← List.take_append_drop 6 (s.toList.drop 18)]
    rw [List.drop_drop]
  refine ⟨?_, ?_, ?_, hd1, hd2⟩
  · calc s.toList = s.toList.take 9 ++ s.toList.drop 9 := (List.take_append_drop 9 _).symm
      _ = "df_final_".toList ++ s.toList.drop 9 := by rw [hpre]
      _ = _ := by
        congr 1
        conv_lhs => rw [e2, e3, m1, m2, hsuf]
  · rw [List.length_take, List.length_drop, hlen29]
    omega
  · rw [List.length_take, List.length_drop, hlen29]
    omega

theorem tsOf_le_of_not_lexLt {na nb : String} (ha : isDfFinalName na = true)
    (hb : isDfFinalName nb = true) (h : lexLt na.toList nb.toList = false) :
    tsOf nb ≤ tsOf na := by
  obtain ⟨hdecA, hlenA1, hlenA2, hdigA1, hdigA2⟩ := isDfFinalName_decomp ha
  obtain ⟨hdecB, hlenB1, hlenB2, hdigB1, hdigB2⟩ := isDfFinalName_decomp hb
  rw [hdecA, hdecB, lexLt_append_same] at h
  by_contra hlt
  push_neg at hlt
  unfold tsOf at hlt
  rw [digitsToNat_append, digitsToNat_append, hlenA2, hlenB2] at hlt
  have hbound2A := digitsToNat_lt _ hdigA2
  have hbound2B := digitsToNat_lt _ hdigB2
  rw [hlenA2] at hbound2A
  rw [hlenB2] at hbound2B
  rw [Bool.eq_false_iff] at h
  apply h
  have hlen18 : ((na.toList.drop 9).take 8).length = ((nb.toList.drop 9).take 8).length := by
    rw [hlenA1, hlenB1]
  rw [lexLt_digit_blocks _ _ _ _ hlen18 hdigA1 hdigB1]
  rcases Nat.lt_trichotomy (digitsToNat ((na.toList.drop 9).take 8))
      (digitsToNat ((nb.toList.drop 9).take 8)) with h1 | h1 | h1
  · exact Or.inl h1
  · right
    refine ⟨digitsToNat_inj hlen18 hdigA1 hdigB1 h1, ?_⟩
    rw [lexLt_cons_same, lexLt_digit_blocks _ _ _ _ (by rw [hlenA2, hlenB2]) hdigA2 hdigB2]
    left
    omega
  · exfalso
    omega

theorem toList_path (competencia n : String) :
    (competencia ++ "/" ++ n).toList = (competencia.toList ++ ['/']) ++ n.toList := by
  rw [toList_append, toList_append]
  rfl

theorem tsOfPath_model (competencia n : String) :
    tsOfPath competencia (competencia ++ "/" ++ n) = tsOf n := by
  unfold tsOfPath
  rw [toList_path]
  have hlen : (competencia.toList ++ ['/']).length = competencia.toList.length + 1 := by
    simp
  rw [← hlen, List.drop_left]
  congr 1

/-- C7: `listar_df_final_por_competencia` returns exactly the stored names
matching `df_final_YYYYMMDD_HHMMSS.xlsx`, each prefixed with the
competence, ordered most-recent-first by the timestamp embedded in the
filename; `escolher_mais_recente_df_final` is its head (or `none` when the
list is empty). -/
theorem listar_most_recent_first (store : String → List String) (competencia : String) :
    (listar_df_final_por_competencia store competencia).Perm
      (((store competencia).filter isDfFinalName).map
        (fun nome => competencia ++ "/" ++ nome))
    ∧ (listar_df_final_por_competencia store competencia).Pairwise
        (fun a b => tsOfPath competencia b ≤ tsOfPath competencia a)
    ∧ escolher_mais_recente_df_final store competencia
        = (listar_df_final_por_competencia store competencia).head? := by
  have hperm : (listar_df_final_por_competencia store competencia).Perm
      (((store competencia).filter isDfFinalName).map
        (fun nome => competencia ++ "/" ++ nome)) :=
    List.perm_insertionSort strGe _
  refine ⟨hperm, ?_, ?_⟩
  · have hsorted : (listar_df_final_por_competencia store competencia).Pairwise strGe :=
      List.sorted_insertionSort strGe _
    apply List.Pairwise.imp_of_mem ?_ hsorted
    intro a b ha hb hge
    have ha2 := hperm.mem_iff.mp ha
    have hb2 := hperm.mem_iff.mp hb
    obtain ⟨na, hna, rfl⟩ := List.mem_map.mp ha2
    obtain ⟨nb, hnb, rfl⟩ := List.mem_map.mp hb2
    have hfa : isDfFinalName na = true := (List.mem_filter.mp hna).2
    have hfb : isDfFinalName nb = true := (List.mem_filter.mp hnb).2
    rw [tsOfPath_model, tsOfPath_model]
    unfold strGe at hge
    rw [toList_path, toList_path, lexLt_append_same] at hge
    exact tsOf_le_of_not_lexLt hfa hfb hge
  · unfold escolher_mais_recente_df_final
    cases listar_df_final_por_competencia store competencia <;> rfl

end Comissoes
